import Mathlib

/-!
Shallow embedding of the core of `src/shcomplete/seq2seq_correction.py`
(the shell-complete repository): the character inventory builder
`get_chars`, the mistake injector `create_mistakes`, the fixed-width
codec `Seq2seq.encode` / `Seq2seq.decode`, and the batch `generator`.

Python strings are modeled as `List Char`, numpy tensors as nested
lists of `Bool`, and every fallible operation returns
`Except Unit`, where `.error ()` stands for a raised Python exception
(ValueError, KeyError escaping, IndexError, AssertionError).

Randomness (numpy.random rand / randint / choice) is passed in
explicitly: each call site receives the raw draw it consumes, so every
function is a pure function of its random source, as the spec states.
`randint(n)` is modeled on the raw draw `r` as `r % n` when `n > 0`
and as a raised ValueError when `n <= 0`, exactly numpy's behavior;
every value of the range `[0, n)` is realized by some draw.
-/

/-- Whitespace characters recognized by Python `str.strip` / `str.rstrip`
for the (ASCII) character data handled here. -/
def isPySpace (c : Char) : Bool :=
  c == ' ' || c == '\t' || c == '\n' || c == '\r' || c == '\x0b' || c == '\x0c'

/-- Python `line.rstrip()`: drop trailing whitespace. -/
def rstrip (l : List Char) : List Char :=
  (l.reverse.dropWhile isPySpace).reverse

/-- Python `line.strip()`: drop leading and trailing whitespace. -/
def pstrip (l : List Char) : List Char :=
  rstrip (l.dropWhile isPySpace)

/-- Model of `get_chars` (seq2seq_correction.py lines 13-22): accumulate
the set of characters of every `line.rstrip()` and return `list(chars)`.
The code applies no sort; a CPython `set` of strings iterates in an
implementation-defined, hash-randomized order, which we model by the
explicit parameter `order` (a duplicate-free enumeration of the
character universe): `list(chars)` lists the members of the accumulated
set in that order. -/
def get_chars (order : List Char) (lines : List (List Char)) : List Char :=
  order.filter (fun c => lines.any (fun line => (rstrip line).contains c))

/-- numpy.random.randint(n) on raw draw `r`: raises ValueError when
`n <= 0`, otherwise yields `r % n`, a value of `[0, n)`. -/
def npRandint (r : Nat) (n : Int) : Except Unit Nat :=
  if n ≤ 0 then .error () else .ok (r % n.toNat)

/-- numpy.random.choice on a list of characters: raises ValueError on an
empty list, otherwise yields the element selected by the raw draw `r`. -/
def npChoice (r : Nat) (xs : List Char) : Except Unit Char :=
  match xs with
  | [] => .error ()
  | x :: rest => .ok ((x :: rest).getD (r % (x :: rest).length) x)

/-- numpy.random.choice on a list of strings (used on the corpus lines). -/
def npChoiceLine (r : Nat) (xs : List (List Char)) : Except Unit (List Char) :=
  match xs with
  | [] => .error ()
  | x :: rest => .ok ((x :: rest).getD (r % (x :: rest).length) x)

/-- Model of `create_mistakes` (lines 25-46).  `p?` is the first component
of the external trie lookup on `command` (None modeled as `none`);
`noiseOK` is the outcome of `rand() < level_of_noise` (the raw uniform
draw is consumed only when the found p? is not None, and only its
comparison against the noise level matters); `rInd`, `rPos`, `rChar`,
`rPos2` are the raw draws for `randint(len(mistakes))`,
`randint(len(p))`, `choice(chars)` and `randint(len(command) - 1)`.
Mistake kinds by index: 0 swap, 1 delition, 2 addition, 3 transposition. -/
def create_mistakes (chars : List Char) (command : List Char)
    (p? : Option (List Char)) (noiseOK : Bool)
    (rInd rPos rChar rPos2 : Nat) : Except Unit (List Char) :=
  match npRandint rInd 4 with
  | .error e => .error e
  | .ok ind =>
    match p? with
    | none => .ok command
    | some p =>
      if noiseOK then
        match npRandint rPos p.length with
        | .error e => .error e
        | .ok char_pos =>
          if ind = 0 then
            match npChoice rChar chars with
            | .error e => .error e
            | .ok c => .ok (command.take char_pos ++ c :: command.drop (char_pos + 1))
          else if ind = 1 then
            .ok (command.take char_pos ++ command.drop (char_pos + 1))
          else if ind = 2 then
            match npChoice rChar chars with
            | .error e => .error e
            | .ok c => .ok (command.take char_pos ++ c :: command.drop char_pos)
          else
            match npRandint rPos2 ((command.length : Int) - 1) with
            | .error e => .error e
            | .ok q =>
              match command[q + 1]?, command[q]? with
              | some c1, some c0 =>
                .ok (command.take q ++ c1 :: c0 :: command.drop (q + 2))
              | _, _ => .error ()
      else .ok command

/-- Seq2seq.__init__ (lines 108-111): `self.chars = sorted(set(chars))`.
Any correct sort realizes Python `sorted`; we use insertion sort on the
deduplicated list. -/
def sortedChars (cs : List Char) : List Char :=
  List.insertionSort (fun a b => a ≤ b) cs.dedup

/-- Lookup in the dict `self.char_indices` built from `enumerate(self.chars)`;
`none` models a KeyError.  `self.chars` is duplicate-free, so taking the
first index agrees with the dict (where a later duplicate would win). -/
def char_indices (A : List Char) (c : Char) : Option Nat :=
  match A with
  | [] => none
  | a :: rest => if a = c then some 0 else (char_indices rest c).map (· + 1)

/-- Lookup in the dict `self.indices_char`; `none` models a KeyError. -/
def indices_char (A : List Char) (i : Nat) : Option Char := A[i]?

/-- Inner loop of Seq2seq.encode over one command: position `j`, remaining
characters, current row.  An unknown character raises KeyError while the
index tuple is evaluated, which the source catches and ignores; a known
character at a position `>= max_cmd_len` raises IndexError on the tensor
write, which nothing catches. -/
def encodeGo (A : List Char) (maxLen : Nat) :
    Nat → List Char → List (List Bool) → Except Unit (List (List Bool))
  | _, [], row => .ok row
  | j, c :: rest, row =>
    match char_indices A c with
    | none => encodeGo A maxLen (j + 1) rest row
    | some k =>
      if j < maxLen then
        encodeGo A maxLen (j + 1) rest (row.set j ((row.getD j []).set k true))
      else .error ()

/-- One sample of Seq2seq.encode: a `(max_cmd_len, len(self.chars))` slice
of the zero tensor, written by `encodeGo`. -/
def encodeRow (A : List Char) (cmd : List Char) (maxLen : Nat) :
    Except Unit (List (List Bool)) :=
  encodeGo A maxLen 0 cmd (List.replicate maxLen (List.replicate A.length false))

/-- Sequencing of a fallible map, stopping at the first raised error. -/
def mapExcept (f : α → Except Unit β) : List α → Except Unit (List β)
  | [] => .ok []
  | x :: xs =>
    match f x with
    | .error e => .error e
    | .ok y =>
      match mapExcept f xs with
      | .error e => .error e
      | .ok ys => .ok (y :: ys)

/-- Seq2seq.encode (lines 113-125) on a batch of commands. -/
def Seq2seq_encode (cs : List Char) (cmds : List (List Char)) (maxLen : Nat) :
    Except Unit (List (List (List Bool))) :=
  mapExcept (fun cmd => encodeRow (sortedChars cs) cmd maxLen) cmds

/-- Index of the first `true` of a Bool slot, if any. -/
def firstTrue : List Bool → Option Nat
  | [] => none
  | b :: rest => if b then some 0 else (firstTrue rest).map (· + 1)

/-- np.argmax over one Bool slot: first index of the maximal value; an
all-false slot yields index 0. -/
def argmaxBool (slot : List Bool) : Nat := (firstTrue slot).getD 0

/-- Positions (from `j`) of the nonzero entries of an index vector. -/
def nonzeroPosGo : Nat → List Nat → List Nat
  | _, [] => []
  | j, v :: rest =>
    if v ≠ 0 then j :: nonzeroPosGo (j + 1) rest else nonzeroPosGo (j + 1) rest

/-- np.nonzero on a 1-D index array: the list of nonzero positions. -/
def nonzeroPos (idxs : List Nat) : List Nat := nonzeroPosGo 0 idxs

/-- np.amax: `none` models the ValueError raised on an empty array. -/
def amax : List Nat → Option Nat
  | [] => none
  | v :: rest =>
    match amax rest with
    | none => some v
    | some m => some (Nat.max v m)

/-- np.amin: `none` models the ValueError raised on an empty array. -/
def amin : List Nat → Option Nat
  | [] => none
  | v :: rest =>
    match amin rest with
    | none => some v
    | some m => some (Nat.min v m)

/-- The decode emission loop `for i in range(lo, lo + n)`: appends
`self.indices_char[X[i]]` for each position; an out-of-range read of the
index array or of the dict raises. -/
def buildFrom (A : List Char) (idxs : List Nat) : Nat → Nat → Except Unit (List Char)
  | _, 0 => .ok []
  | lo, n + 1 =>
    match idxs[lo]? with
    | none => .error ()
    | some v =>
      match indices_char A v with
      | none => .error ()
      | some c =>
        match buildFrom A idxs (lo + 1) n with
        | .error e => .error e
        | .ok rest => .ok (c :: rest)

/-- Seq2seq.decode (lines 127-142) with reduction=True: collapse each
position by argmax, then emit from the lowest nonzero position to the end
(inverted) or from the start through the highest nonzero position
(not inverted).  With no nonzero position, np.amax / np.amin of the empty
nonzero result raises ValueError. -/
def Seq2seq_decode (cs : List Char) (X : List (List Bool)) (maxLen : Nat)
    (inverted : Bool) : Except Unit (List Char) :=
  let A := sortedChars cs
  let idxs := X.map argmaxBool
  if inverted then
    match amin (nonzeroPos idxs) with
    | none => .error ()
    | some b => buildFrom A idxs b (maxLen - b)
  else
    match amax (nonzeroPos idxs) with
    | none => .error ()
    | some e => buildFrom A idxs 0 (e + 1)

/-- Seq2seq.decode (lines 143-147) with reduction=False: the input is
already a 1-D class-index array; an all-zero array yields the empty
string. -/
def Seq2seq_decode_raw (cs : List Char) (idxs : List Nat) : Except Unit (List Char) :=
  if (nonzeroPos idxs).length ≠ 0 then
    match amax (nonzeroPos idxs) with
    | none => .error ()
    | some e => buildFrom (sortedChars cs) idxs 0 (e + 1)
  else .ok []

/-- Model of `generate_input` (lines 70-79): inject mistakes, then right-pad
both the misspelled and the true command with the padding sentinel to
`max_cmd_len` (Python padding by a negative repeat count adds nothing).
`pfxOf` is the external trie lookup capability. -/
def generate_input (chars : List Char) (command : List Char)
    (pfxOf : List Char → Option (List Char)) (pad : Char) (maxLen : Nat)
    (noiseOK : Bool) (rInd rPos rChar rPos2 : Nat) :
    Except Unit (List Char × List Char) :=
  match create_mistakes chars command (pfxOf command) noiseOK rInd rPos rChar rPos2 with
  | .error e => .error e
  | .ok miss =>
    .ok (miss ++ List.replicate (maxLen - miss.length) pad,
         command ++ List.replicate (maxLen - command.length) pad)

/-- The raw random draws consumed by one sample of the batch loop. -/
structure SampleDraws where
  lineIdx : Nat
  rInd : Nat
  noiseOK : Bool
  rPos : Nat
  rChar : Nat
  rPos2 : Nat

/-- The corpus filter of `generator` (lines 183-185): the raw line, with
its trailing newline still attached, is compared against the delimiter
and measured against `max_cmd_len`; the kept lines are then stripped. -/
def generatorFilter (rawLines : List (List Char)) (delim : List Char)
    (maxLen : Nat) : List (List Char) :=
  (rawLines.filter (fun cmd => decide (cmd ≠ delim ∧ cmd.length ≤ maxLen))).map pstrip

/-- The batch accumulation loop of `generator` (lines 186-193): draw a
line, build the padded (misspelled, true) pair, assert the true command
has length exactly `max_cmd_len`, optionally reverse the misspelled
command. -/
def gatherSamples (chars : List Char) (pfxOf : List Char → Option (List Char))
    (lines : List (List Char)) (pad : Char) (maxLen : Nat) (inverted : Bool)
    (draws : Nat → SampleDraws) :
    Nat → Except Unit (List (List Char) × List (List Char))
  | 0 => .ok ([], [])
  | k + 1 =>
    match gatherSamples chars pfxOf lines pad maxLen inverted draws k with
    | .error e => .error e
    | .ok (cmds, miss) =>
      let d := draws k
      match npChoiceLine d.lineIdx lines with
      | .error e => .error e
      | .ok command =>
        match generate_input chars command pfxOf pad maxLen
            d.noiseOK d.rInd d.rPos d.rChar d.rPos2 with
        | .error e => .error e
        | .ok (m, c) =>
          if c.length = maxLen then
            .ok (cmds ++ [c], miss ++ [if inverted then m.reverse else m])
          else .error ()

/-- One step of `generator` (lines 173-200): filter the corpus, gather a
batch, check the length asserts, encode misspelled commands as X and true
commands as y. -/
def generator_step (chars : List Char) (pfxOf : List Char → Option (List Char))
    (rawLines : List (List Char)) (delim : List Char) (pad : Char)
    (maxLen batchSize : Nat) (inverted : Bool) (draws : Nat → SampleDraws) :
    Except Unit (List (List (List Bool)) × List (List (List Bool))) :=
  let lines := generatorFilter rawLines delim maxLen
  match gatherSamples chars pfxOf lines pad maxLen inverted draws batchSize with
  | .error e => .error e
  | .ok (cmds, miss) =>
    if cmds.length = miss.length ∧ cmds.length = batchSize then
      match Seq2seq_encode chars miss maxLen with
      | .error e => .error e
      | .ok X =>
        match Seq2seq_encode chars cmds maxLen with
        | .error e => .error e
        | .ok y => .ok (X, y)
    else .error ()

/-- The slot Seq2seq.encode leaves at one (sample, position): all-zero for
a position past the string or holding an unknown character, one-hot at the
inventory index for a known character. -/
def slotFor (A : List Char) (oc : Option Char) : List Bool :=
  match oc with
  | none => List.replicate A.length false
  | some c =>
    match char_indices A c with
    | none => List.replicate A.length false
    | some k => (List.replicate A.length false).set k true

/-! ### Library lemmas about the embedded operations -/

theorem char_indices_some (A : List Char) (c : Char) (k : Nat)
    (h : char_indices A c = some k) : k < A.length ∧ A[k]? = some c := by
  induction A generalizing k with
  | nil => simp [char_indices] at h
  | cons a rest ih =>
    by_cases hac : a = c
    · simp [char_indices, hac] at h
      subst h
      simp [hac]
    · simp [char_indices, hac] at h
      obtain ⟨k', hk', rfl⟩ := h
      obtain ⟨h1, h2⟩ := ih k' hk'
      constructor
      · simpa using Nat.succ_lt_succ h1
      · simpa using h2

theorem char_indices_of_mem {A : List Char} {c : Char} (h : c ∈ A) :
    ∃ k, char_indices A c = some k := by
  induction A with
  | nil => simp at h
  | cons a rest ih =>
    by_cases hac : a = c
    · exact ⟨0, by simp [char_indices, hac]⟩
    · have : c ∈ rest := by
        rcases List.mem_cons.mp h with h1 | h1
        · exact absurd h1.symm hac
        · exact h1
      obtain ⟨k, hk⟩ := ih this
      exact ⟨k + 1, by simp [char_indices, hac, hk]⟩

theorem char_indices_eq_none {A : List Char} {c : Char}
    (h : c ∉ A) : char_indices A c = none := by
  induction A with
  | nil => rfl
  | cons a rest ih =>
    have hac : a ≠ c := fun hc => h (by simp [hc])
    have : c ∉ rest := fun hc => h (by simp [hc])
    simp [char_indices, hac, ih this]

theorem firstTrue_replicate_false (n : Nat) :
    firstTrue (List.replicate n false) = none := by
  induction n with
  | zero => rfl
  | succ m ih => simp [List.replicate_succ, firstTrue, ih]

theorem argmaxBool_zeros (n : Nat) : argmaxBool (List.replicate n false) = 0 := by
  simp [argmaxBool, firstTrue_replicate_false]

theorem firstTrue_onehot (n k : Nat) (hk : k < n) :
    firstTrue ((List.replicate n false).set k true) = some k := by
  induction n generalizing k with
  | zero => omega
  | succ m ih =>
    cases k with
    | zero => simp [List.replicate_succ, List.set, firstTrue]
    | succ k' =>
      have hk' : k' < m := by omega
      simp [List.replicate_succ, List.set, firstTrue, ih k' hk']

theorem argmaxBool_onehot (n k : Nat) (hk : k < n) :
    argmaxBool ((List.replicate n false).set k true) = k := by
  simp [argmaxBool, firstTrue_onehot n k hk]

theorem onehot_getElem? (n k m : Nat) (hk : k < n) (hm : m < n) :
    ((List.replicate n false).set k true)[m]? = some (decide (m = k)) := by
  rcases eq_or_ne k m with rfl | hne
  · rw [List.getElem?_set_self (by simpa using hk)]
    simp
  · rw [List.getElem?_set_ne hne]
    rw [List.getElem?_replicate]
    simp [hm, Ne.symm hne]

theorem slotFor_length (A : List Char) (oc : Option Char) :
    (slotFor A oc).length = A.length := by
  rcases oc with _ | c
  · simp [slotFor]
  · unfold slotFor
    rcases h : char_indices A c with _ | k <;> simp [h]

theorem encodeGo_ok (A : List Char) (maxLen : Nat) (rest : List Char) :
    ∀ (j : Nat) (row : List (List Bool)),
      (∀ i c, rest[i]? = some c → char_indices A c ≠ none → j + i < maxLen) →
      row.length = maxLen →
      (∀ p, j ≤ p → p < maxLen → row[p]? = some (List.replicate A.length false)) →
      ∃ r, encodeGo A maxLen j rest row = .ok r ∧ r.length = maxLen ∧
        (∀ p, p < j → r[p]? = row[p]?) ∧
        (∀ p, j ≤ p → p < maxLen → r[p]? = some (slotFor A rest[p - j]?)) := by
  induction rest with
  | nil =>
    intro j row _ hlen hzero
    refine ⟨row, rfl, hlen, fun p _ => rfl, fun p hjp hpm => ?_⟩
    simp [hzero p hjp hpm, slotFor]
  | cons c rest ih =>
    intro j row hin hlen hzero
    rcases hci : char_indices A c with _ | k
    · -- unknown character: KeyError caught, slot untouched
      have hin' : ∀ i c', rest[i]? = some c' → char_indices A c' ≠ none →
          (j + 1) + i < maxLen := by
        intro i c' hi hc'
        have := hin (i + 1) c' (by simpa using hi) hc'
        omega
      obtain ⟨r, hr, hrlen, hpre, hpost⟩ := ih (j + 1) row hin'
        hlen (fun p hp hpm => hzero p (by omega) hpm)
      refine ⟨r, ?_, hrlen, ?_, ?_⟩
      · simp only [encodeGo, hci]
        exact hr
      · intro p hp
        exact hpre p (by omega)
      · intro p hjp hpm
        rcases Nat.eq_or_lt_of_le hjp with rfl | hlt
        · rw [hpre j (by omega), hzero j (le_refl j) hpm]
          simp [slotFor, hci]
        · rw [hpost p hlt hpm]
          congr 1
          have : p - j = (p - (j + 1)) + 1 := by omega
          simp [this]
    · -- known character: the write must be in range
      have hj : j < maxLen := by
        have := hin 0 c (by simp) (by simp [hci])
        omega
      have hrow : row[j]?.getD [] = List.replicate A.length false := by
        rw [hzero j (le_refl j) hj]
        rfl
      have hrowD : row.getD j [] = List.replicate A.length false := by
        rw [List.getD_eq_getElem?_getD]
        exact hrow
      set row' := row.set j ((row.getD j []).set k true) with hrow'
      have hlen' : row'.length = maxLen := by simp [hrow', hlen]
      have hzero' : ∀ p, j + 1 ≤ p → p < maxLen → row'[p]? =
          some (List.replicate A.length false) := by
        intro p hp hpm
        rw [hrow', List.getElem?_set_ne (by omega)]
        exact hzero p (by omega) hpm
      have hin' : ∀ i c', rest[i]? = some c' → char_indices A c' ≠ none →
          (j + 1) + i < maxLen := by
        intro i c' hi hc'
        have := hin (i + 1) c' (by simpa using hi) hc'
        omega
      obtain ⟨r, hr, hrlen, hpre, hpost⟩ := ih (j + 1) row' hin' hlen' hzero'
      refine ⟨r, ?_, hrlen, ?_, ?_⟩
      · simp only [encodeGo, hci]
        rw [if_pos hj, ← hrow']
        exact hr
      · intro p hp
        rw [hpre p (by omega), hrow', List.getElem?_set_ne (by omega)]
      · intro p hjp hpm
        rcases Nat.eq_or_lt_of_le hjp with rfl | hlt
        · rw [hpre j (by omega), hrow', List.getElem?_set_self (by omega)]
          simp [hrow, slotFor, hci]
        · rw [hpost p hlt hpm]
          congr 1
          have : p - j = (p - (j + 1)) + 1 := by omega
          simp [this]

theorem encodeRow_ok (A : List Char) (cmd : List Char) (maxLen : Nat)
    (hin : ∀ i c, cmd[i]? = some c → char_indices A c ≠ none → i < maxLen) :
    ∃ r, encodeRow A cmd maxLen = .ok r ∧ r.length = maxLen ∧
      ∀ p, p < maxLen → r[p]? = some (slotFor A cmd[p]?) := by
  obtain ⟨r, hr, hrlen, _, hpost⟩ := encodeGo_ok A maxLen cmd 0
    (List.replicate maxLen (List.replicate A.length false))
    (by intro i c hi hc ; simpa using hin i c hi hc)
    (by simp)
    (by intro p _ hpm ; simp [List.getElem?_replicate, hpm])
  exact ⟨r, hr, hrlen, fun p hpm => by simpa using hpost p (Nat.zero_le p) hpm⟩

theorem encodeGo_error (A : List Char) (maxLen : Nat) (rest : List Char) :
    ∀ (j : Nat) (row : List (List Bool)) (i : Nat) (c : Char),
      rest[i]? = some c → char_indices A c ≠ none → maxLen ≤ j + i →
      encodeGo A maxLen j rest row = .error () := by
  induction rest with
  | nil => intro j row i c hi ; simp at hi
  | cons c0 rest ih =>
    intro j row i c hi hc hml
    rcases hci : char_indices A c0 with _ | k
    · have hi0 : i ≠ 0 := by
        intro h
        subst h
        simp at hi
        subst hi
        exact hc hci
      obtain ⟨i', rfl⟩ := Nat.exists_eq_succ_of_ne_zero hi0
      simp only [encodeGo, hci]
      exact ih (j + 1) row i' c (by simpa using hi) hc (by omega)
    · by_cases hj : j < maxLen
      · have hi0 : i ≠ 0 := by
          intro h
          subst h
          omega
        obtain ⟨i', rfl⟩ := Nat.exists_eq_succ_of_ne_zero hi0
        simp only [encodeGo, hci, if_pos hj]
        exact ih (j + 1) _ i' c (by simpa using hi) hc (by omega)
      · simp [encodeGo, hci, hj]

theorem encodeGo_shape (A : List Char) (maxLen : Nat) (rest : List Char) :
    ∀ (j : Nat) (row r : List (List Bool)),
      encodeGo A maxLen j rest row = .ok r →
      row.length = maxLen → (∀ s ∈ row, s.length = A.length) →
      r.length = maxLen ∧ ∀ s ∈ r, s.length = A.length := by
  induction rest with
  | nil =>
    intro j row r h hlen hmem
    simp [encodeGo] at h
    subst h
    exact ⟨hlen, hmem⟩
  | cons c rest ih =>
    intro j row r h hlen hmem
    rcases hci : char_indices A c with _ | k
    · simp only [encodeGo, hci] at h
      exact ih (j + 1) row r h hlen hmem
    · by_cases hj : j < maxLen
      · simp only [encodeGo, hci, if_pos hj] at h
        refine ih (j + 1) _ r h (by simp [hlen]) ?_
        intro s hs
        rcases List.mem_or_eq_of_mem_set hs with hs' | rfl
        · exact hmem s hs'
        · rw [List.length_set]
          have : row.getD j [] ∈ row := by
            have hjl : j < row.length := by omega
            rw [List.getD_eq_getElem?_getD, List.getElem?_eq_getElem hjl]
            exact List.getElem_mem hjl
          exact hmem _ this
      · simp [encodeGo, hci, hj] at h

theorem mapExcept_ok {α β : Type} (f : α → Except Unit β) (l : List α)
    (out : List β) (h : mapExcept f l = .ok out) :
    out.length = l.length ∧
      ∀ (i : Nat) (x : α), l[i]? = some x → ∃ y, out[i]? = some y ∧ f x = .ok y := by
  induction l generalizing out with
  | nil =>
    simp [mapExcept] at h
    subst h
    simp
  | cons a rest ih =>
    rcases ha : f a with e | y
    · simp [mapExcept, ha] at h
    · rcases hrest : mapExcept f rest with e | ys
      · simp [mapExcept, ha, hrest] at h
      · simp [mapExcept, ha, hrest] at h
        subst h
        obtain ⟨hl, hx⟩ := ih ys hrest
        refine ⟨by simp [hl], ?_⟩
        intro i x hi
        cases i with
        | zero =>
          simp at hi
          subst hi
          refine ⟨y, ?_, ha⟩
          simp
        | succ i' =>
          simp at hi
          obtain ⟨z, hz, hfz⟩ := hx i' x hi
          refine ⟨z, ?_, hfz⟩
          simpa using hz

theorem mapExcept_ok_of_all {α β : Type} (f : α → Except Unit β) (l : List α)
    (h : ∀ x ∈ l, ∃ y, f x = .ok y) : ∃ out, mapExcept f l = .ok out := by
  induction l with
  | nil => exact ⟨[], rfl⟩
  | cons a rest ih =>
    obtain ⟨y, hy⟩ := h a (by simp)
    obtain ⟨ys, hys⟩ := ih (fun x hx => h x (by simp [hx]))
    exact ⟨y :: ys, by simp [mapExcept, hy, hys]⟩

theorem mapExcept_error_of_mem {α β : Type} (f : α → Except Unit β) (l : List α)
    (x : α) (hx : x ∈ l) (hfx : f x = .error ()) :
    mapExcept f l = .error () := by
  induction l with
  | nil => simp at hx
  | cons a rest ih =>
    rcases ha : f a with e | y
    · cases e
      simp [mapExcept, ha]
    · rcases List.mem_cons.mp hx with rfl | hx'
      · rw [ha] at hfx
        cases hfx
      · rcases hrest : mapExcept f rest with e | ys
        · cases e
          simp [mapExcept, ha, hrest]
        · rw [ih hx'] at hrest
          cases hrest

theorem mem_nonzeroPosGo (l : List Nat) :
    ∀ (j p : Nat), p ∈ nonzeroPosGo j l ↔
      ∃ i v, l[i]? = some v ∧ v ≠ 0 ∧ p = j + i := by
  induction l with
  | nil =>
    intro j p
    simp [nonzeroPosGo]
  | cons v rest ih =>
    intro j p
    by_cases hv : v = 0
    · subst hv
      simp only [nonzeroPosGo, ne_eq, not_true_eq_false, if_false, ih (j + 1) p]
      constructor
      · rintro ⟨i, w, hi, hw, rfl⟩
        exact ⟨i + 1, w, by simpa using hi, hw, by omega⟩
      · rintro ⟨i, w, hi, hw, rfl⟩
        cases i with
        | zero =>
          simp at hi
          exact absurd hi.symm hw
        | succ i' =>
          simp at hi
          exact ⟨i', w, hi, hw, by omega⟩
    · simp only [nonzeroPosGo, ne_eq, hv, not_false_eq_true, if_true, List.mem_cons,
        ih (j + 1) p]
      constructor
      · rintro (rfl | ⟨i, w, hi, hw, rfl⟩)
        · exact ⟨0, v, by simp, hv, by omega⟩
        · exact ⟨i + 1, w, by simpa using hi, hw, by omega⟩
      · rintro ⟨i, w, hi, hw, rfl⟩
        cases i with
        | zero =>
          simp at hi
          left
          omega
        | succ i' =>
          simp at hi
          right
          exact ⟨i', w, hi, hw, by omega⟩

theorem mem_nonzeroPos (l : List Nat) (p : Nat) :
    p ∈ nonzeroPos l ↔ ∃ v, l[p]? = some v ∧ v ≠ 0 := by
  rw [nonzeroPos, mem_nonzeroPosGo]
  constructor
  · rintro ⟨i, v, hi, hv, rfl⟩
    exact ⟨v, by simpa using hi, hv⟩
  · rintro ⟨v, hp, hv⟩
    exact ⟨p, v, hp, hv, by omega⟩

theorem amax_eq_none (l : List Nat) : amax l = none ↔ l = [] := by
  cases l with
  | nil => simp [amax]
  | cons v rest =>
    simp only [amax]
    rcases amax rest with _ | m <;> simp

theorem amax_mem (l : List Nat) (m : Nat) (h : amax l = some m) : m ∈ l := by
  induction l generalizing m with
  | nil => simp [amax] at h
  | cons v rest ih =>
    rcases hr : amax rest with _ | m'
    · simp [amax, hr] at h
      simp [h]
    · simp [amax, hr] at h
      subst h
      rcases Nat.le_total v m' with h1 | h1
      · simp [Nat.max_eq_right h1, ih m' hr]
      · simp [Nat.max_eq_left h1]

theorem amax_eq_some_of (l : List Nat) (m : Nat) (hm : m ∈ l)
    (hb : ∀ x ∈ l, x ≤ m) : amax l = some m := by
  induction l with
  | nil => simp at hm
  | cons v rest ih =>
    rcases List.mem_cons.mp hm with rfl | hm'
    · rcases hr : amax rest with _ | m'
      · simp [amax, hr]
      · have hm'mem : m' ∈ rest := amax_mem rest m' hr
        have : m' ≤ m := hb m' (by simp [hm'mem])
        simp [amax, hr, Nat.max_eq_left this]
    · have : amax rest = some m := ih hm' (fun x hx => hb x (by simp [hx]))
      have hv : v ≤ m := hb v (by simp)
      simp [amax, this, Nat.max_eq_right hv]

theorem buildFrom_ok (A : List Char) (idxs : List Nat) (s : List Char) :
    ∀ (lo n : Nat), lo + n ≤ s.length →
      (∀ i, lo ≤ i → i < lo + n →
        ∃ v, idxs[i]? = some v ∧ indices_char A v = s[i]?) →
      buildFrom A idxs lo n = .ok ((s.drop lo).take n) := by
  intro lo n
  induction n generalizing lo with
  | zero => intro _ _ ; simp [buildFrom]
  | succ n ih =>
    intro hn hlook
    obtain ⟨v, hv, hic⟩ := hlook lo (le_refl lo) (by omega)
    have hlo : lo < s.length := by omega
    have hslo : s[lo]? = some s[lo] := List.getElem?_eq_getElem hlo
    have hrec : buildFrom A idxs (lo + 1) n = .ok ((s.drop (lo + 1)).take n) := by
      refine ih (lo + 1) (by omega) ?_
      intro i hi1 hi2
      exact hlook i (by omega) (by omega)
    simp only [buildFrom, hv, hic, hslo, hrec]
    rw [List.drop_eq_getElem_cons hlo, List.take_succ_cons]

theorem sortedChars_sorted (cs : List Char) :
    List.Sorted (fun a b => a ≤ b) (sortedChars cs) :=
  List.sorted_insertionSort _ _

theorem sortedChars_perm (cs : List Char) : (sortedChars cs).Perm cs.dedup :=
  List.perm_insertionSort _ _

theorem mem_sortedChars {cs : List Char} {c : Char} :
    c ∈ sortedChars cs ↔ c ∈ cs := by
  rw [(sortedChars_perm cs).mem_iff, List.mem_dedup]

theorem sortedChars_length (cs : List Char) :
    (sortedChars cs).length = cs.dedup.length :=
  (sortedChars_perm cs).length_eq

theorem sortedChars_eq_of_mem_iff {cs1 cs2 : List Char}
    (h : ∀ c, c ∈ cs1 ↔ c ∈ cs2) : sortedChars cs1 = sortedChars cs2 := by
  haveI : IsAntisymm Char (fun a b => a ≤ b) := ⟨fun a b h1 h2 => le_antisymm h1 h2⟩
  refine List.eq_of_perm_of_sorted ?_ (sortedChars_sorted cs1) (sortedChars_sorted cs2)
  refine (sortedChars_perm cs1).trans (List.Perm.trans ?_ (sortedChars_perm cs2).symm)
  refine (List.perm_ext_iff_of_nodup (List.nodup_dedup cs1) (List.nodup_dedup cs2)).mpr ?_
  intro a
  rw [List.mem_dedup, List.mem_dedup]
  exact h a

theorem splice_set {l : List Char} {p : Nat} (hp : p < l.length) (a : Char) :
    l.take p ++ a :: l.drop (p + 1) = l.set p a := by
  rw [List.set_eq_take_append_cons_drop, if_pos hp]

theorem splice_erase (l : List Char) (p : Nat) :
    l.take p ++ l.drop (p + 1) = l.eraseIdx p :=
  (List.eraseIdx_eq_take_drop_succ l p).symm

theorem splice_insert (a : Char) : ∀ (p : Nat) (l : List Char), p ≤ l.length →
    l.take p ++ a :: l.drop p = l.insertIdx p a := by
  intro p
  induction p with
  | zero => intro l _ ; simp [List.insertIdx_zero]
  | succ p ih =>
    intro l hp
    cases l with
    | nil => simp at hp
    | cons x xs =>
      rw [List.insertIdx_succ_cons, List.take_succ_cons, List.drop_succ_cons,
        List.cons_append, ih xs (by simpa using hp)]

theorem splice_transpose : ∀ (p : Nat) (l : List Char) (c0 c1 : Char),
    l[p]? = some c0 → l[p + 1]? = some c1 →
    l.take p ++ c1 :: c0 :: l.drop (p + 2) = (l.set p c1).set (p + 1) c0 := by
  intro p
  induction p with
  | zero =>
    intro l c0 c1 h0 h1
    cases l with
    | nil => simp at h0
    | cons x xs =>
      cases xs with
      | nil => simp at h1
      | cons y ys =>
        simp at h0 h1
        subst h0
        subst h1
        rfl
  | succ p ih =>
    intro l c0 c1 h0 h1
    cases l with
    | nil => simp at h0
    | cons x xs =>
      simp only [List.getElem?_cons_succ] at h0 h1
      rw [List.take_succ_cons, List.set_cons_succ, List.set_cons_succ,
        List.cons_append]
      have hdrop : (x :: xs).drop (p + 1 + 2) = xs.drop (p + 2) := rfl
      rw [hdrop, ih xs c0 c1 h0 h1]

theorem npRandint_ok (r n : Nat) (h : 0 < n) :
    npRandint r (n : Int) = .ok (r % n) ∧ r % n < n := by
  have hneg : ¬((n : Int) ≤ 0) := by
    simp only [not_le]
    exact_mod_cast h
  constructor
  · simp [npRandint, hneg]
  · exact Nat.mod_lt r h

theorem npChoice_ok (r : Nat) (xs : List Char) (h : xs ≠ []) :
    ∃ c, npChoice r xs = .ok c ∧ xs[r % xs.length]? = some c := by
  cases xs with
  | nil => exact absurd rfl h
  | cons x rest =>
    have hlen : r % (x :: rest).length < (x :: rest).length :=
      Nat.mod_lt _ (by simp)
    refine ⟨(x :: rest).getD (r % (x :: rest).length) x, rfl, ?_⟩
    rw [List.getD_eq_getElem?_getD, List.getElem?_eq_getElem hlen]
    rfl

/-! ### Claim theorems -/

/-- C3: the claim says decoding an all-zero row with reduction=true does
not raise and returns the empty string.  The code instead collapses the
row to all-zero argmax indices, finds no nonzero position, and np.amax of
the empty result raises ValueError: the model returns an error for every
max_cmd_len and every alphabet width. -/
theorem c3_decode_allzero_raises (cs : List Char) (maxLen n : Nat) :
    Seq2seq_decode cs (List.replicate maxLen (List.replicate n false)) maxLen false
      = .error () := by
  have hidx : (List.replicate maxLen (List.replicate n false)).map argmaxBool
      = List.replicate maxLen 0 := by
    rw [List.map_replicate, argmaxBool_zeros]
  have hnz : nonzeroPos (List.replicate maxLen 0) = [] := by
    rw [List.eq_nil_iff_forall_not_mem]
    intro p hp
    rw [mem_nonzeroPos] at hp
    obtain ⟨v, hv, hv0⟩ := hp
    rw [List.getElem?_replicate] at hv
    by_cases h : p < maxLen
    · rw [if_pos h] at hv
      exact hv0 (by injection hv with h' ; exact h'.symm)
    · rw [if_neg h] at hv
      cases hv
  simp [Seq2seq_decode, hidx, hnz, amax]

/-- C4 counterexample: the claim says create_mistakes raises no error for
every prefix-lookup result, in particular an empty found prefix.  With
prefix "" and the noise test passing, the code calls randint(0), which
raises ValueError. -/
theorem c4_total_counterexample :
    create_mistakes ['a'] ['x'] (some []) true 0 0 0 0 = .error () := by rfl

/-- C4 amended: create_mistakes always terminates, and raises no error
provided the inventory is nonempty, any found prefix is nonempty, and the
command has at least two characters; without those bounds randint or
choice raises on an empty range (empty prefix; transposition on a command
of length < 2; swap or addition with an empty inventory). -/
theorem c4_total_amended (chars command : List Char) (p? : Option (List Char))
    (noiseOK : Bool) (rInd rPos rChar rPos2 : Nat)
    (hchars : chars ≠ []) (hp : ∀ p, p? = some p → p ≠ [])
    (hcmd : 2 ≤ command.length) :
    ∃ res, create_mistakes chars command p? noiseOK rInd rPos rChar rPos2
      = .ok res := by
  have h4 : npRandint rInd 4 = .ok (rInd % 4) := by
    have ht : ((4 : Int)).toNat = 4 := rfl
    simp [npRandint, ht]
  rcases hps : p? with _ | p
  · exact ⟨command, by simp [create_mistakes, h4]⟩
  · have hpne : p ≠ [] := hp p hps
    cases noiseOK with
    | false => exact ⟨command, by simp [create_mistakes, h4]⟩
    | true =>
      have hplen : 0 < p.length := List.length_pos.mpr hpne
      obtain ⟨hpos, hposlt⟩ := npRandint_ok rPos p.length hplen
      by_cases h0 : rInd % 4 = 0
      · obtain ⟨c, hc, _⟩ := npChoice_ok rChar chars hchars
        exact ⟨command.take (rPos % p.length) ++ c ::
          command.drop (rPos % p.length + 1),
          by simp [create_mistakes, h4, hpos, h0, hc]⟩
      · by_cases h1 : rInd % 4 = 1
        · exact ⟨command.take (rPos % p.length) ++
            command.drop (rPos % p.length + 1),
            by simp [create_mistakes, h4, hpos, h0, h1]⟩
        · by_cases h2 : rInd % 4 = 2
          · obtain ⟨c, hc, _⟩ := npChoice_ok rChar chars hchars
            exact ⟨command.take (rPos % p.length) ++ c ::
              command.drop (rPos % p.length),
              by simp [create_mistakes, h4, hpos, h0, h1, h2, hc]⟩
          · have hlen1 : 0 < command.length - 1 := by omega
            have hcast : ((command.length : Int) - 1)
                = ((command.length - 1 : Nat) : Int) := by omega
            obtain ⟨hq, hqlt⟩ := npRandint_ok rPos2 (command.length - 1) hlen1
            rw [← hcast] at hq
            have hq1 : rPos2 % (command.length - 1) + 1 < command.length := by omega
            have hq0 : rPos2 % (command.length - 1) < command.length := by omega
            exact ⟨command.take (rPos2 % (command.length - 1)) ++
              command[rPos2 % (command.length - 1) + 1] ::
              command[rPos2 % (command.length - 1)] ::
              command.drop (rPos2 % (command.length - 1) + 2),
              by simp [create_mistakes, h4, hpos, h0, h1, h2, hq,
                List.getElem?_eq_getElem hq1, List.getElem?_eq_getElem hq0]⟩

/-- Witness for the amended C4 at a concrete input. -/
theorem c4_total_amended_witness :
    (['a'] : List Char) ≠ [] ∧
      (∀ p, (some ['x'] : Option (List Char)) = some p → p ≠ []) ∧
      2 ≤ (['x', 'y'] : List Char).length ∧
      ∃ res, create_mistakes ['a'] ['x', 'y'] (some ['x']) true 0 0 0 0 = .ok res :=
  ⟨by decide,
   fun p hp => by injection hp with h ; rw [← h] ; decide,
   by decide,
   c4_total_amended ['a'] ['x', 'y'] (some ['x']) true 0 0 0 0
     (by decide) (fun p hp => by injection hp with h ; rw [← h] ; decide)
     (by decide)⟩

/-- C5 counterexample: the claim says get_chars returns a sorted list.
The code never sorts: list(set(...)) only enumerates the accumulated set
in the implementation-defined set order, so with enumeration order b, a
the characters of the line "ab" come out as [b, a], which is not sorted
(sorting happens later, in Seq2seq.__init__). -/
theorem c5_sorted_counterexample :
    get_chars ['b', 'a'] [['a', 'b', '\n']] = ['b', 'a'] ∧
      (['b', 'a'] : List Char).Nodup ∧
      ¬ List.Sorted (fun x y => x ≤ y) (get_chars ['b', 'a'] [['a', 'b', '\n']]) := by
  refine ⟨by rfl, by decide, ?_⟩
  rw [show get_chars ['b', 'a'] [['a', 'b', '\n']] = ['b', 'a'] from rfl]
  intro hs
  have h := List.rel_of_sorted_cons hs 'a' (by simp)
  revert h
  decide

/-- C5 amended: get_chars returns a deduplicated list holding exactly the
characters that appear in some line after stripping trailing whitespace,
in the unspecified set-enumeration order (assumed duplicate-free and
covering the character universe); the list is not sorted by get_chars. -/
theorem c5_chars_amended (order : List Char) (lines : List (List Char))
    (horder : order.Nodup) :
    (get_chars order lines).Nodup ∧
      ∀ c, c ∈ get_chars order lines ↔
        c ∈ order ∧ ∃ line ∈ lines, c ∈ rstrip line := by
  constructor
  · exact horder.filter _
  · intro c
    simp [get_chars, List.mem_filter]

/-- Witness for the amended C5 at a concrete input. -/
theorem c5_chars_amended_witness :
    (['b', 'a'] : List Char).Nodup ∧
      ((get_chars ['b', 'a'] [['a', 'b', '\n']]).Nodup ∧
        ∀ c, c ∈ get_chars ['b', 'a'] [['a', 'b', '\n']] ↔
          c ∈ ['b', 'a'] ∧ ∃ line ∈ [['a', 'b', '\n']], c ∈ rstrip line) :=
  ⟨by decide, c5_chars_amended ['b', 'a'] [['a', 'b', '\n']] (by decide)⟩

/-- C7 counterexample: the claim says a command of length exactly
max_cmd_len is kept by the corpus filter.  The filter measures the raw
line, whose trailing newline is still attached, so the line "ab\n" with
max_cmd_len = 2 carries the command "ab" of length exactly 2, differs
from the delimiter, and is nevertheless excluded. -/
theorem c7_filter_counterexample :
    pstrip ['a', 'b', '\n'] = ['a', 'b'] ∧
      (pstrip ['a', 'b', '\n']).length ≤ 2 ∧
      ['a', 'b', '\n'] ≠ ['#'] ∧
      generatorFilter [['a', 'b', '\n']] ['#'] 2 = [] := by
  refine ⟨by rfl, by rfl, by decide, by rfl⟩

/-- C7 amended: the corpus filter keeps exactly the raw lines that differ
from the delimiter and whose raw length, trailing newline included, is at
most max_cmd_len, and then strips each kept line; lines are never
truncated, and a newline-terminated command needs length at most
max_cmd_len - 1 to stay eligible. -/
theorem c7_filter_amended (raws : List (List Char)) (delim : List Char)
    (maxLen : Nat) (x : List Char) :
    x ∈ generatorFilter raws delim maxLen ↔
      ∃ raw ∈ raws, raw ≠ delim ∧ raw.length ≤ maxLen ∧ x = pstrip raw := by
  simp only [generatorFilter, List.mem_map, List.mem_filter, decide_eq_true_eq]
  constructor
  · rintro ⟨raw, ⟨hmem, hd, hl⟩, hx⟩
    exact ⟨raw, hmem, hd, hl, hx.symm⟩
  · rintro ⟨raw, hmem, hd, hl, hx⟩
    exact ⟨raw, ⟨hmem, hd, hl⟩, hx.symm⟩

theorem char_indices_ne_none {A : List Char} {c : Char}
    (h : char_indices A c ≠ none) : c ∈ A := by
  by_contra hc
  exact h (char_indices_eq_none hc)

theorem slotFor_bit (A : List Char) (oc : Option Char) (m : Nat)
    (hm : m < A.length) :
    (slotFor A oc)[m]? = some true ↔
      ∃ c, oc = some c ∧ char_indices A c = some m := by
  rcases oc with _ | c
  · simp [slotFor, List.getElem?_replicate, hm]
  · rcases hci : char_indices A c with _ | k
    · simp [slotFor, hci, List.getElem?_replicate, hm]
    · have hk : k < A.length := (char_indices_some A c k hci).1
      rw [slotFor]
      simp only [hci]
      rw [onehot_getElem? A.length k m hk hm]
      constructor
      · intro hmt
        have : m = k := by
          by_contra hne
          simp [hne] at hmt
        exact ⟨c, rfl, by rw [hci, this]⟩
      · rintro ⟨c', hc', hci'⟩
        injection hc' with hc'
        subst hc'
        rw [hci] at hci'
        injection hci' with hkm
        simp [hkm]

/-- C9: the Seq2seq constructor sorts and deduplicates its chars argument,
so two inventories with the same underlying character set yield identical
internal alphabets and hence identical encode and decode behavior on
every input. -/
theorem c9_codec_invariance (cs1 cs2 : List Char)
    (h : ∀ c, c ∈ cs1 ↔ c ∈ cs2) :
    sortedChars cs1 = sortedChars cs2 ∧
      (∀ (cmds : List (List Char)) (maxLen : Nat),
        Seq2seq_encode cs1 cmds maxLen = Seq2seq_encode cs2 cmds maxLen) ∧
      (∀ (X : List (List Bool)) (maxLen : Nat) (inverted : Bool),
        Seq2seq_decode cs1 X maxLen inverted = Seq2seq_decode cs2 X maxLen inverted) := by
  have hs := sortedChars_eq_of_mem_iff h
  refine ⟨hs, ?_, ?_⟩
  · intro cmds maxLen
    simp only [Seq2seq_encode, hs]
  · intro X maxLen inverted
    simp only [Seq2seq_decode, hs]

/-- Witness for C9 at two concrete inventories with equal underlying sets. -/
theorem c9_codec_invariance_witness :
    (∀ c, c ∈ (['b', 'a'] : List Char) ↔ c ∈ (['a', 'b'] : List Char)) ∧
      (sortedChars ['b', 'a'] = sortedChars ['a', 'b'] ∧
        (∀ (cmds : List (List Char)) (maxLen : Nat),
          Seq2seq_encode ['b', 'a'] cmds maxLen = Seq2seq_encode ['a', 'b'] cmds maxLen) ∧
        (∀ (X : List (List Bool)) (maxLen : Nat) (inverted : Bool),
          Seq2seq_decode ['b', 'a'] X maxLen inverted
            = Seq2seq_decode ['a', 'b'] X maxLen inverted)) :=
  ⟨fun c => by simp [or_comm],
   c9_codec_invariance ['b', 'a'] ['a', 'b'] (fun c => by simp [or_comm])⟩

/-- C10: the lenient zero-slot policy of encode covers only unknown
characters: a command holding an inventory character at a position at or
past max_cmd_len makes the tensor write raise IndexError, which the
except clause (catching only KeyError) does not stop, so the whole batch
encode raises. -/
theorem c10_encode_overlong (cs : List Char) (cmds : List (List Char))
    (maxLen i j : Nat) (cmd : List Char) (c : Char)
    (hi : cmds[i]? = some cmd) (hj : cmd[j]? = some c)
    (hc : c ∈ cs) (hjm : maxLen ≤ j) :
    Seq2seq_encode cs cmds maxLen = .error () := by
  have hcA : c ∈ sortedChars cs := mem_sortedChars.mpr hc
  obtain ⟨k, hk⟩ := char_indices_of_mem hcA
  have hrow : encodeRow (sortedChars cs) cmd maxLen = .error () :=
    encodeGo_error _ maxLen cmd 0 _ j c hj (by simp [hk]) (by omega)
  exact mapExcept_error_of_mem _ cmds cmd
    (List.mem_iff_getElem?.mpr ⟨i, hi⟩) hrow

/-- Witness for C10 at a concrete over-length command. -/
theorem c10_encode_overlong_witness :
    ([['a', 'a']] : List (List Char))[0]? = some ['a', 'a'] ∧
      (['a', 'a'] : List Char)[1]? = some 'a' ∧
      'a' ∈ (['a'] : List Char) ∧ 1 ≤ 1 ∧
      Seq2seq_encode ['a'] [['a', 'a']] 1 = .error () :=
  ⟨by rfl, by rfl, by decide, by decide,
   c10_encode_overlong ['a'] [['a', 'a']] 1 0 1 ['a', 'a'] 'a'
     (by rfl) (by rfl) (by decide) (by decide)⟩

/-- C2: encode never raises on a character absent from the inventory
(unknown characters only ever leave their slot all-zero): provided every
inventory character of every command sits at a position below
max_cmd_len, the batch encode succeeds, and in the result a slot bit is
set exactly when the command holds, at that position, the inventory
character with that index; in particular unknown-character slots and
positions past a string's end are all-zero. -/
theorem c2_encode_lenient (cs : List Char) (cmds : List (List Char)) (maxLen : Nat)
    (h : ∀ cmd ∈ cmds, ∀ (j : Nat) (c : Char),
      cmd[j]? = some c → c ∈ cs → j < maxLen) :
    ∃ X, Seq2seq_encode cs cmds maxLen = .ok X ∧ X.length = cmds.length ∧
      ∀ (i : Nat) (cmd : List Char), cmds[i]? = some cmd →
        ∃ row, X[i]? = some row ∧ row.length = maxLen ∧
          ∀ j, j < maxLen → ∃ slot, row[j]? = some slot ∧
            slot.length = (sortedChars cs).length ∧
            ∀ m, m < (sortedChars cs).length →
              (slot[m]? = some true ↔
                ∃ c, cmd[j]? = some c ∧
                  char_indices (sortedChars cs) c = some m) := by
  have hrows : ∀ cmd ∈ cmds, ∃ r, encodeRow (sortedChars cs) cmd maxLen = .ok r ∧
      r.length = maxLen ∧
      ∀ p, p < maxLen → r[p]? = some (slotFor (sortedChars cs) cmd[p]?) := by
    intro cmd hcmd
    refine encodeRow_ok (sortedChars cs) cmd maxLen ?_
    intro i c hic hknown
    exact h cmd hcmd i c hic (mem_sortedChars.mp (char_indices_ne_none hknown))
  obtain ⟨X, hX⟩ := mapExcept_ok_of_all _ cmds
    (fun cmd hcmd => (hrows cmd hcmd).imp (fun r hr => hr.1))
  obtain ⟨hlen, hpt⟩ := mapExcept_ok _ cmds X hX
  refine ⟨X, hX, hlen, ?_⟩
  intro i cmd hi
  obtain ⟨row, hrow, hfrow⟩ := hpt i cmd hi
  have hcmdmem : cmd ∈ cmds := List.mem_iff_getElem?.mpr ⟨i, hi⟩
  obtain ⟨r, hr, hrlen, hrslot⟩ := hrows cmd hcmdmem
  rw [hr] at hfrow
  injection hfrow with hfrow
  rw [← hfrow] at hrow
  refine ⟨r, hrow, hrlen, ?_⟩
  intro j hj
  refine ⟨slotFor (sortedChars cs) cmd[j]?, hrslot j hj,
    slotFor_length _ _, ?_⟩
  intro m hm
  rw [slotFor_bit (sortedChars cs) cmd[j]? m hm]

/-- Witness for C2 at a concrete batch with an unknown character. -/
theorem c2_encode_lenient_witness :
    (∀ cmd ∈ ([['a', 'z']] : List (List Char)), ∀ (j : Nat) (c : Char),
      cmd[j]? = some c → c ∈ (['a'] : List Char) → j < 2) ∧
      (∃ X, Seq2seq_encode ['a'] [['a', 'z']] 2 = .ok X ∧
        X.length = ([['a', 'z']] : List (List Char)).length ∧
        ∀ (i : Nat) (cmd : List Char), ([['a', 'z']] : List (List Char))[i]? = some cmd →
          ∃ row, X[i]? = some row ∧ row.length = 2 ∧
            ∀ j, j < 2 → ∃ slot, row[j]? = some slot ∧
              slot.length = (sortedChars ['a']).length ∧
              ∀ m, m < (sortedChars ['a']).length →
                (slot[m]? = some true ↔
                  ∃ c, cmd[j]? = some c ∧
                    char_indices (sortedChars ['a']) c = some m)) := by
  have hhyp : ∀ cmd ∈ ([['a', 'z']] : List (List Char)), ∀ (j : Nat) (c : Char),
      cmd[j]? = some c → c ∈ (['a'] : List Char) → j < 2 := by
    intro cmd hcmd j c hjc _
    simp only [List.mem_singleton] at hcmd
    subst hcmd
    by_contra hge
    rw [List.getElem?_eq_none (by simp ; omega)] at hjc
    cases hjc
  exact ⟨hhyp, c2_encode_lenient ['a'] [['a', 'z']] 2 hhyp⟩

theorem encodeRow_shape (A : List Char) (cmd : List Char) (maxLen : Nat)
    (r : List (List Bool)) (h : encodeRow A cmd maxLen = .ok r) :
    r.length = maxLen ∧ ∀ s ∈ r, s.length = A.length :=
  encodeGo_shape A maxLen cmd 0 _ r h (by simp)
    (fun s hs => by rw [List.eq_of_mem_replicate hs] ; simp)

theorem mapExcept_ok_mem {α β : Type} (f : α → Except Unit β) (l : List α)
    (out : List β) (h : mapExcept f l = .ok out) (y : β) (hy : y ∈ out) :
    ∃ x ∈ l, f x = .ok y := by
  obtain ⟨hlen, hpt⟩ := mapExcept_ok f l out h
  obtain ⟨i, hi⟩ := List.mem_iff_getElem?.mp hy
  have hiout : i < out.length := (List.getElem?_eq_some.mp hi).1
  have hil : i < l.length := by omega
  obtain ⟨y', hy', hfy'⟩ := hpt i l[i] (List.getElem?_eq_getElem hil)
  rw [hi] at hy'
  injection hy' with hy'
  subst hy'
  exact ⟨l[i], List.getElem_mem hil, hfy'⟩

/-- C8: every (X, y) pair the generator emits satisfies
X.shape = y.shape = (batch_size, max_cmd_len, alphabet_size), where the
alphabet size is the length of the deduplicated character inventory.
The emitted tensors come from encode, whose zero tensor is allocated with
exactly those dimensions and only ever written pointwise. -/
theorem c8_generator_shapes (chars : List Char)
    (pfxOf : List Char → Option (List Char)) (rawLines : List (List Char))
    (delim : List Char) (pad : Char) (maxLen batchSize : Nat) (inverted : Bool)
    (draws : Nat → SampleDraws) (X y : List (List (List Bool)))
    (h : generator_step chars pfxOf rawLines delim pad maxLen batchSize
      inverted draws = .ok (X, y)) :
    X.length = batchSize ∧ y.length = batchSize ∧
      (∀ row ∈ X, row.length = maxLen ∧
        ∀ slot ∈ row, slot.length = chars.dedup.length) ∧
      (∀ row ∈ y, row.length = maxLen ∧
        ∀ slot ∈ row, slot.length = chars.dedup.length) := by
  rw [generator_step] at h
  rcases hg : gatherSamples chars pfxOf
      (generatorFilter rawLines delim maxLen) pad maxLen inverted draws
      batchSize with e | ⟨cmds, miss⟩
  · rw [hg] at h
    cases h
  · rw [hg] at h
    simp only at h
    by_cases hc : cmds.length = miss.length ∧ cmds.length = batchSize
    · rw [if_pos hc] at h
      rcases hX : Seq2seq_encode chars miss maxLen with e | X'
      · rw [hX] at h
        cases h
      · rw [hX] at h
        rcases hy : Seq2seq_encode chars cmds maxLen with e | y'
        · rw [hy] at h
          cases h
        · rw [hy] at h
          simp only at h
          injection h with h
          injection h with hX' hy'
          rw [hX'] at hX
          rw [hy'] at hy
          obtain ⟨hXlen, _⟩ := mapExcept_ok _ miss X hX
          obtain ⟨hylen, _⟩ := mapExcept_ok _ cmds y hy
          refine ⟨by omega, by omega, ?_, ?_⟩
          · intro row hrow
            obtain ⟨cmd, _, hfc⟩ := mapExcept_ok_mem _ miss X hX row hrow
            obtain ⟨h1, h2⟩ := encodeRow_shape _ cmd maxLen row hfc
            exact ⟨h1, fun slot hslot => by
              rw [h2 slot hslot, sortedChars_length]⟩
          · intro row hrow
            obtain ⟨cmd, _, hfc⟩ := mapExcept_ok_mem _ cmds y hy row hrow
            obtain ⟨h1, h2⟩ := encodeRow_shape _ cmd maxLen row hfc
            exact ⟨h1, fun slot hslot => by
              rw [h2 slot hslot, sortedChars_length]⟩
    · rw [if_neg hc] at h
      cases h

/-- Witness for C8 at a concrete one-sample generator step. -/
theorem c8_generator_shapes_witness :
    generator_step ['a'] (fun _ => none) [['a']] ['#'] 'a' 1 1 false
        (fun _ => ⟨0, 0, false, 0, 0, 0⟩) = .ok ([[[true]]], [[[true]]]) ∧
      (([[[true]]] : List (List (List Bool))).length = 1 ∧
        ([[[true]]] : List (List (List Bool))).length = 1 ∧
        (∀ row ∈ ([[[true]]] : List (List (List Bool))), row.length = 1 ∧
          ∀ slot ∈ row, slot.length = (['a'] : List Char).dedup.length) ∧
        (∀ row ∈ ([[[true]]] : List (List (List Bool))), row.length = 1 ∧
          ∀ slot ∈ row, slot.length = (['a'] : List Char).dedup.length)) :=
  ⟨by rfl,
   c8_generator_shapes ['a'] (fun _ => none) [['a']] ['#'] 'a' 1 1 false
     (fun _ => ⟨0, 0, false, 0, 0, 0⟩) [[[true]]] [[[true]]] (by rfl)⟩

/-- C1 counterexample: the round trip fails as stated.  Over the
inventory a, b (so index 0 is the letter a), the string "ba" of length
max_cmd_len is encoded faithfully, but decode collapses the trailing
position to argmax index 0, cannot distinguish it from padding, and
returns "b" instead of "ba". -/
theorem c1_roundtrip_counterexample :
    (∀ c ∈ (['b', 'a'] : List Char), c ∈ (['a', 'b'] : List Char)) ∧
      (['b', 'a'] : List Char).length ≤ 2 ∧
      Seq2seq_encode ['a', 'b'] [['b', 'a']] 2
        = .ok [[[false, true], [true, false]]] ∧
      Seq2seq_decode ['a', 'b'] [[false, true], [true, false]] 2 false
        = .ok ['b'] ∧
      Seq2seq_decode ['a', 'b'] [[false, true], [true, false]] 2 false
        ≠ .ok ['b', 'a'] := by
  refine ⟨by decide, by decide, by rfl, by rfl, ?_⟩
  rw [show Seq2seq_decode ['a', 'b'] [[false, true], [true, false]] 2 false
    = .ok ['b'] from rfl]
  intro hcon
  injection hcon with hcon
  exact absurd hcon (by decide)

/-- C1 amended: for every nonempty string of length at most max_cmd_len
drawn from the inventory whose final character is not the least character
of the sorted inventory (index 0), decoding the encoded row with
reduction=true and inverted=false returns exactly the original string,
trailing padding trimmed.  (When the final character has index 0 its
position is indistinguishable from padding after argmax and is trimmed
too, as the counterexample shows.) -/
theorem c1_roundtrip_amended (cs : List Char) (s : List Char) (maxLen : Nat)
    (hne : s ≠ [])
    (hmem : ∀ c ∈ s, c ∈ cs)
    (hlen : s.length ≤ maxLen)
    (hlast : s.getLast?.bind (char_indices (sortedChars cs)) ≠ some 0) :
    ∃ X, Seq2seq_encode cs [s] maxLen = .ok [X] ∧
      Seq2seq_decode cs X maxLen false = .ok s := by
  set A := sortedChars cs with hA
  have hL : 0 < s.length := List.length_pos.mpr hne
  -- every character of the string is in the sorted inventory
  have hmemA : ∀ c ∈ s, c ∈ A := fun c hc => mem_sortedChars.mpr (hmem c hc)
  -- encode the row
  obtain ⟨X, hX, hXlen, hXslot⟩ := encodeRow_ok A s maxLen (by
    intro i c hic _
    have : i < s.length := (List.getElem?_eq_some.mp hic).1
    omega)
  have hbatch : Seq2seq_encode cs [s] maxLen = .ok [X] := by
    simp [Seq2seq_encode, mapExcept, ← hA, hX]
  -- the argmax index at each in-range position
  have hidx : ∀ j, j < maxLen →
      (X.map argmaxBool)[j]? = some (argmaxBool (slotFor A s[j]?)) := by
    intro j hj
    rw [List.getElem?_map, hXslot j hj]
    rfl
  -- positions inside the string carry the character index
  have hchar : ∀ j, j < s.length → ∃ c k, s[j]? = some c ∧
      char_indices A c = some k ∧ k < A.length ∧ A[k]? = some c ∧
      argmaxBool (slotFor A s[j]?) = k := by
    intro j hj
    have hsj : s[j]? = some s[j] := List.getElem?_eq_getElem hj
    obtain ⟨k, hk⟩ := char_indices_of_mem (hmemA s[j] (List.getElem_mem hj))
    obtain ⟨hklt, hkA⟩ := char_indices_some A s[j] k hk
    refine ⟨s[j], k, hsj, hk, hklt, hkA, ?_⟩
    rw [hsj]
    simp only [slotFor, hk]
    exact argmaxBool_onehot A.length k hklt
  -- positions past the string collapse to argmax index 0
  have hpad : ∀ j, s.length ≤ j → argmaxBool (slotFor A s[j]?) = 0 := by
    intro j hj
    rw [List.getElem?_eq_none hj, slotFor]
    exact argmaxBool_zeros A.length
  -- the final character has a nonzero index
  obtain ⟨clast, klast, hclast, hklast, hklastlt, hklastA, hklastarg⟩ :=
    hchar (s.length - 1) (by omega)
  have hklast0 : klast ≠ 0 := by
    intro h0
    apply hlast
    rw [List.getLast?_eq_getElem?, hclast]
    simp [hklast, h0]
  -- the highest nonzero argmax position is exactly the last character
  have hamax : amax (nonzeroPos (X.map argmaxBool)) = some (s.length - 1) := by
    apply amax_eq_some_of
    · rw [mem_nonzeroPos]
      refine ⟨klast, ?_, hklast0⟩
      rw [hidx (s.length - 1) (by omega), hklastarg]
    · intro x hx
      rw [mem_nonzeroPos] at hx
      obtain ⟨v, hv, hv0⟩ := hx
      by_cases hxm : x < maxLen
      · rw [hidx x hxm] at hv
        injection hv with hv
        by_cases hxs : x < s.length
        · omega
        · rw [hpad x (by omega)] at hv
          exact absurd hv.symm hv0
      · rw [List.getElem?_eq_none (by simp [hXlen] ; omega)] at hv
        cases hv
  -- decode emits positions 0 through the last character
  have hbuild : buildFrom A (X.map argmaxBool) 0 (s.length - 1 + 1) = .ok s := by
    have hs11 : s.length - 1 + 1 = s.length := by omega
    rw [hs11]
    have := buildFrom_ok A (X.map argmaxBool) s 0 s.length (by omega) (by
      intro i hi0 hi
      simp only [Nat.zero_add] at hi
      obtain ⟨c, k, hc, hk, hklt, hkA, hkarg⟩ := hchar i hi
      refine ⟨k, ?_, ?_⟩
      · rw [hidx i (by omega), hkarg]
      · simp only [indices_char]
        rw [hkA, hc])
    simpa using this
  refine ⟨X, hbatch, ?_⟩
  simp only [Seq2seq_decode, ← hA, Bool.false_eq_true, if_false, hamax]
  exact hbuild

/-- Witness for the amended C1 at a concrete string and inventory. -/
theorem c1_roundtrip_amended_witness :
    (['a', 'b'] : List Char) ≠ [] ∧
      (∀ c ∈ (['a', 'b'] : List Char), c ∈ (['a', 'b'] : List Char)) ∧
      (['a', 'b'] : List Char).length ≤ 3 ∧
      (['a', 'b'] : List Char).getLast?.bind
        (char_indices (sortedChars ['a', 'b'])) ≠ some 0 ∧
      ∃ X, Seq2seq_encode ['a', 'b'] [['a', 'b']] 3 = .ok [X] ∧
        Seq2seq_decode ['a', 'b'] X 3 false = .ok ['a', 'b'] :=
  ⟨by decide, by decide, by decide, by decide,
   c1_roundtrip_amended ['a', 'b'] ['a', 'b'] 3 (by decide) (by decide)
     (by decide) (by decide)⟩

/-- C6: when a mistake is applied (prefix found, noise test passed), the
swap, delition and addition kinds use a position randint-drawn over
[0, len(prefix)), realized on the raw draw as its remainder mod the
prefix length; the transposition kind re-draws the position over
[0, len(command) - 1) and exchanges the character there with its right
neighbor.  The effects are stated through the independent list
operations set, eraseIdx, insertIdx and a double set. -/
theorem c6_mistake_positions (chars command p : List Char)
    (rInd rPos rChar rPos2 : Nat)
    (hp : p ≠ []) (hplen : p.length ≤ command.length)
    (hchars : chars ≠ []) (hcmd2 : 2 ≤ command.length) :
    (rPos % p.length < p.length) ∧
      (rInd % 4 = 0 → ∃ c, npChoice rChar chars = .ok c ∧
        create_mistakes chars command (some p) true rInd rPos rChar rPos2
          = .ok (command.set (rPos % p.length) c)) ∧
      (rInd % 4 = 1 →
        create_mistakes chars command (some p) true rInd rPos rChar rPos2
          = .ok (command.eraseIdx (rPos % p.length))) ∧
      (rInd % 4 = 2 → ∃ c, npChoice rChar chars = .ok c ∧
        create_mistakes chars command (some p) true rInd rPos rChar rPos2
          = .ok (command.insertIdx (rPos % p.length) c)) ∧
      (rInd % 4 = 3 →
        rPos2 % (command.length - 1) < command.length - 1 ∧
        ∃ c0 c1, command[rPos2 % (command.length - 1)]? = some c0 ∧
          command[rPos2 % (command.length - 1) + 1]? = some c1 ∧
          create_mistakes chars command (some p) true rInd rPos rChar rPos2
            = .ok ((command.set (rPos2 % (command.length - 1)) c1).set
                (rPos2 % (command.length - 1) + 1) c0)) := by
  have h4 : npRandint rInd 4 = .ok (rInd % 4) := by
    have ht : ((4 : Int)).toNat = 4 := rfl
    simp [npRandint, ht]
  have hplen0 : 0 < p.length := List.length_pos.mpr hp
  obtain ⟨hpos, hposlt⟩ := npRandint_ok rPos p.length hplen0
  have hposcmd : rPos % p.length < command.length := by omega
  refine ⟨hposlt, ?_, ?_, ?_, ?_⟩
  · intro h0
    obtain ⟨c, hc, _⟩ := npChoice_ok rChar chars hchars
    refine ⟨c, hc, ?_⟩
    rw [← splice_set hposcmd c]
    simp [create_mistakes, h4, hpos, h0, hc]
  · intro h1
    rw [← splice_erase command (rPos % p.length)]
    by_cases h0 : rInd % 4 = 0
    · omega
    · simp [create_mistakes, h4, hpos, h0, h1]
  · intro h2
    obtain ⟨c, hc, _⟩ := npChoice_ok rChar chars hchars
    refine ⟨c, hc, ?_⟩
    rw [← splice_insert c (rPos % p.length) command (by omega)]
    have h0 : ¬(rInd % 4 = 0) := by omega
    have h1 : ¬(rInd % 4 = 1) := by omega
    simp [create_mistakes, h4, hpos, h0, h1, h2, hc]
  · intro h3
    have h0 : ¬(rInd % 4 = 0) := by omega
    have h1 : ¬(rInd % 4 = 1) := by omega
    have h2 : ¬(rInd % 4 = 2) := by omega
    have hlen1 : 0 < command.length - 1 := by omega
    have hcast : ((command.length : Int) - 1)
        = ((command.length - 1 : Nat) : Int) := by omega
    obtain ⟨hq, hqlt⟩ := npRandint_ok rPos2 (command.length - 1) hlen1
    rw [← hcast] at hq
    have hq1 : rPos2 % (command.length - 1) + 1 < command.length := by omega
    have hq0 : rPos2 % (command.length - 1) < command.length := by omega
    have hc0 : command[rPos2 % (command.length - 1)]?
        = some command[rPos2 % (command.length - 1)] :=
      List.getElem?_eq_getElem hq0
    have hc1 : command[rPos2 % (command.length - 1) + 1]?
        = some command[rPos2 % (command.length - 1) + 1] :=
      List.getElem?_eq_getElem hq1
    refine ⟨hqlt, command[rPos2 % (command.length - 1)],
      command[rPos2 % (command.length - 1) + 1], hc0, hc1, ?_⟩
    rw [← splice_transpose (rPos2 % (command.length - 1)) command
      command[rPos2 % (command.length - 1)]
      command[rPos2 % (command.length - 1) + 1] hc0 hc1]
    simp [create_mistakes, h4, hpos, h0, h1, h2, hq, hc0, hc1]

/-- Witness for C6 at a concrete transposition draw. -/
theorem c6_mistake_positions_witness :
    (['x'] : List Char) ≠ [] ∧ (['x'] : List Char).length ≤ 2 ∧
      (['a'] : List Char) ≠ [] ∧ 2 ≤ (['x', 'y'] : List Char).length ∧
      ((0 % (['x'] : List Char).length < (['x'] : List Char).length) ∧
        (3 % 4 = 0 → ∃ c, npChoice 0 ['a'] = .ok c ∧
          create_mistakes ['a'] ['x', 'y'] (some ['x']) true 3 0 0 0
            = .ok ((['x', 'y'] : List Char).set (0 % (['x'] : List Char).length) c)) ∧
        (3 % 4 = 1 →
          create_mistakes ['a'] ['x', 'y'] (some ['x']) true 3 0 0 0
            = .ok ((['x', 'y'] : List Char).eraseIdx (0 % (['x'] : List Char).length))) ∧
        (3 % 4 = 2 → ∃ c, npChoice 0 ['a'] = .ok c ∧
          create_mistakes ['a'] ['x', 'y'] (some ['x']) true 3 0 0 0
            = .ok ((['x', 'y'] : List Char).insertIdx (0 % (['x'] : List Char).length) c)) ∧
        (3 % 4 = 3 →
          0 % ((['x', 'y'] : List Char).length - 1) < (['x', 'y'] : List Char).length - 1 ∧
          ∃ c0 c1, (['x', 'y'] : List Char)[0 % ((['x', 'y'] : List Char).length - 1)]? = some c0 ∧
            (['x', 'y'] : List Char)[0 % ((['x', 'y'] : List Char).length - 1) + 1]? = some c1 ∧
            create_mistakes ['a'] ['x', 'y'] (some ['x']) true 3 0 0 0
              = .ok (((['x', 'y'] : List Char).set
                  (0 % ((['x', 'y'] : List Char).length - 1)) c1).set
                  (0 % ((['x', 'y'] : List Char).length - 1) + 1) c0))) :=
  ⟨by decide, by decide, by decide, by decide,
   c6_mistake_positions ['a'] ['x', 'y'] ['x'] 3 0 0 0
     (by decide) (by decide) (by decide) (by decide)⟩
